import Mathlib

/-!
Shallow embedding of the core validation engine of `pydantic-async-validation`
(`src/pydantic_async_validation/`): validator records (`validators.py`),
the class-construction registry hook (`metaclasses.py`), the signature
adapter (`utils.py`), location prefixing (`utils.py`) and the runtime
entry point `model_async_validate` (`mixins.py`).

Python values reachable from a model instance are modelled by the inductive
`Value`; a model instance is `Value.inst cls attrs` where `attrs` is the
ordered `self.__dict__`.  Async validator bodies are modelled as pure Lean
functions returning an outcome `FOutcome`: normal return, a raised
`ValueError`, a raised `AssertionError`, or any other (fatal) exception.
The engine runs strictly sequentially, so the `await` points of the source
disappear in the embedding.  Fallible execution is `Except String α`, the
`String` being the fatal exception that propagates uncaught.
-/

namespace PydanticAsyncValidation

/-- One location path segment: a field name / mapping key, or a list index
(`loc` entries in pydantic error details are strings or ints). -/
inductive Seg where
  | s (x : String)
  | i (n : Nat)
deriving DecidableEq, Repr

/-- A Python value reachable from a model instance: `None`, an opaque
non-model value, a model instance (class name plus ordered `__dict__`),
a list, a tuple, or a dict with string keys. -/
inductive Value where
  | vnone
  | prim (tag : String)
  | inst (cls : String) (attrs : List (String × Value))
  | vlist (xs : List Value)
  | vtuple (xs : List Value)
  | vdict (kvs : List (String × Value))
deriving Repr

/-- The ordered `self.__dict__` of a model instance. -/
abbrev Attrs := List (String × Value)

/-- One error entry (`InitErrorDetails` / `ErrorDetails`): the error type
tag, the message, the location path and the offending input. -/
structure ErrorDetail where
  type : String
  msg : String
  loc : List Seg
  input : Value
deriving Repr

/-- Outcome of awaiting one validator body: normal return, a raised
`ValueError`, a raised `AssertionError`, or an exception of any other
class (fatal for the run). -/
inductive FOutcome where
  | ok
  | valueError (msg : String)
  | assertionError (msg : String)
  | fatal (msg : String)
deriving DecidableEq, Repr

/-- The data slots of a `Validator` record as observed by a validator body
through its `config` argument (`validators.py` `Validator.__slots__ =
('func', 'skip_on_failure')`; the body cannot re-enter `func`, so the
observable configuration is the `skip_on_failure` slot). -/
structure VConfig where
  skip_on_failure : Bool
deriving DecidableEq, Repr

/-- A field validator body after signature adaptation: it receives the
instance (`self.__dict__`), the field value, the field name and the
validator record as `config`. -/
abbrev FieldFunc := Attrs → Value → String → VConfig → FOutcome

/-- A model validator body: it receives the instance and the validator
record as `config`. -/
abbrev ModelFunc := Attrs → VConfig → FOutcome

/-- `validators.py` `Validator`: helper / data class storing validator
information, slots `func` and `skip_on_failure`. -/
structure Validator (F : Type) where
  func : F
  skip_on_failure : Bool
deriving Repr

/-- The record data a validator body observes when it is passed the
`Validator` object as its `config` argument. -/
def Validator.config {F : Type} (v : Validator F) : VConfig :=
  ⟨v.skip_on_failure⟩

/-- The class-level validator registry stored by the metaclass under
`pydantic_model_async_field_validators` / `pydantic_model_async_model_validators`:
field validator bindings (field names plus record) and model validator
records, in composed order. -/
structure ClassInfo where
  field_validators : List (List String × Validator FieldFunc)
  model_validators : List (Validator ModelFunc)

/-- The mapping from class names to their computed registries; `none`
models a class that is not an `AsyncValidationModelMixin` subclass. -/
abbrev ClassTable := String → Option ClassInfo

/-- `getattr(self, name, None)`: look the field up in `self.__dict__`,
defaulting to `None`. -/
def getattrD (attrs : Attrs) (name : String) : Value :=
  match attrs.find? (fun p => p.1 == name) with
  | some p => p.2
  | none => .vnone

/-- `utils.py` `prefix_errors`: return a new list where every entry's
location is the prefix followed by the original location (both source
branches keep type, message and input unchanged). -/
def prefix_errors (pre : List Seg) (errors : List ErrorDetail) : List ErrorDetail :=
  errors.map (fun e => { e with loc := pre ++ e.loc })

/-- The error entry appended for a caught field-validator failure
(`mixins.py` field loop `except` block): custom `value_error` with the
exception text, `loc=(field_name,)`, `input=getattr(self, field_name, None)`. -/
def fieldErrorEntry (attrs : Attrs) (name msg : String) : ErrorDetail :=
  { type := "value_error", msg := msg, loc := [.s name], input := getattrD attrs name }

/-- The error entry appended for a caught model-validator failure
(`mixins.py` model loop `except` block): custom `value_error`,
`loc=('__root__',)`, `input=self.__dict__`. -/
def modelErrorEntry (attrs : Attrs) (msg : String) : ErrorDetail :=
  { type := "value_error", msg := msg, loc := [.s "__root__"], input := .vdict attrs }

/-- The inner loop `for field_name in field_names` of the field-validator
phase of `model_async_validate`: call the validator for each bound field,
catching `ValueError` / `AssertionError` into `validation_errors` (the
accumulator `errs`), letting any other exception propagate. -/
def runFieldNames (f : FieldFunc) (cfg : VConfig) (attrs : Attrs) :
    List String → List ErrorDetail → Except String (List ErrorDetail)
  | [], errs => .ok errs
  | name :: rest, errs =>
    match f attrs (getattrD attrs name) name cfg with
    | .ok => runFieldNames f cfg attrs rest errs
    | .valueError m => runFieldNames f cfg attrs rest (errs ++ [fieldErrorEntry attrs name m])
    | .assertionError m => runFieldNames f cfg attrs rest (errs ++ [fieldErrorEntry attrs name m])
    | .fatal m => .error m

/-- The outer loop `for field_validator_attr in field_validators` of the
field-validator phase: each binding yields `(field_names, field_validator)`
and runs over its bound field names in order. -/
def runFieldValidators (attrs : Attrs) :
    List (List String × Validator FieldFunc) → List ErrorDetail →
    Except String (List ErrorDetail)
  | [], errs => .ok errs
  | (names, v) :: rest, errs =>
    match runFieldNames v.func v.config attrs names errs with
    | .ok errs' => runFieldValidators attrs rest errs'
    | .error m => .error m

/-- The loop `for model_validator_attr in model_validators` of
`model_async_validate`: call every model validator with `(self,
model_validator)`, catching `ValueError` / `AssertionError` into the
accumulator.  Note: the source consults no flag before calling — every
record's `func` is invoked. -/
def runModelValidators (attrs : Attrs) :
    List (Validator ModelFunc) → List ErrorDetail → Except String (List ErrorDetail)
  | [], errs => .ok errs
  | v :: rest, errs =>
    match v.func attrs v.config with
    | .ok => runModelValidators attrs rest errs
    | .valueError m => runModelValidators attrs rest (errs ++ [modelErrorEntry attrs m])
    | .assertionError m => runModelValidators attrs rest (errs ++ [modelErrorEntry attrs m])
    | .fatal m => .error m

/-- `isinstance(x, AsyncValidationModelMixin)`: the value is a model
instance whose class went through the async-validation metaclass. -/
def isValidatable (ct : ClassTable) : Value → Bool
  | .inst cls _ => (ct cls).isSome
  | _ => false

mutual

/-- The error-collection body of `mixins.py` `model_async_validate`:
read the class registries (`getattr(self, ..., [])`), run all field
validators, then all model validators, then walk the instance's own
attributes recursing into child instances; return the final
`validation_errors` list, or propagate a fatal exception. -/
def collectErrors (ct : ClassTable) (cls : String) (attrs : Attrs) :
    Except String (List ErrorDetail) :=
  let info := (ct cls).getD ⟨[], []⟩
  match runFieldValidators attrs info.field_validators [] with
  | .error m => .error m
  | .ok errs1 =>
    match runModelValidators attrs info.model_validators errs1 with
    | .error m => .error m
    | .ok errs2 => walkAttrs ct attrs errs2
termination_by (sizeOf attrs, 1)

/-- The loop `for attribute_name, attribute_value in self.__dict__.items()`
of `model_async_validate`. -/
def walkAttrs (ct : ClassTable) (l : Attrs) (errs : List ErrorDetail) :
    Except String (List ErrorDetail) :=
  match l with
  | [] => .ok errs
  | (name, v) :: rest =>
    match walkAttr ct name v errs with
    | .error m => .error m
    | .ok errs' => walkAttrs ct rest errs'
termination_by (sizeOf l, 0)

/-- The per-attribute body: a direct child instance is validated with
prefix `(attribute_name,)`; a `list` attribute has its instance items
validated with prefix `(attribute_name, index)`; a `dict` attribute has
its instance values validated with prefix `(attribute_name, key)`.
Tuples (and every other container) are not descended into
(`isinstance(attribute_value, list)` / `isinstance(attribute_value, dict)`).
`extend_with_validation_errors_by` catches the child's `ValidationError`
(raised iff the child's list is non-empty) and extends with the prefixed
child errors; prefixing an empty list extends with nothing, so extending
with the prefixed child list directly is observably identical.  A fatal
exception from the child is not caught. -/
def walkAttr (ct : ClassTable) (name : String) (v : Value)
    (errs : List ErrorDetail) : Except String (List ErrorDetail) :=
  match v with
  | .inst ccls cattrs =>
    if (ct ccls).isSome then
      match collectErrors ct ccls cattrs with
      | .error m => .error m
      | .ok ces => .ok (errs ++ prefix_errors [.s name] ces)
    else
      .ok errs
  | .vlist xs => walkList ct name 0 xs errs
  | .vdict kvs => walkDict ct name kvs errs
  | _ => .ok errs
termination_by (sizeOf v, 1)

/-- The loop `for index, item in enumerate(attribute_value)` over a list
attribute, validating items that are model instances. -/
def walkList (ct : ClassTable) (name : String) (idx : Nat) (xs : List Value)
    (errs : List ErrorDetail) : Except String (List ErrorDetail) :=
  match xs with
  | [] => .ok errs
  | x :: rest =>
    match x with
    | .inst ccls cattrs =>
      if (ct ccls).isSome then
        match collectErrors ct ccls cattrs with
        | .error m => .error m
        | .ok ces =>
          walkList ct name (idx + 1) rest (errs ++ prefix_errors [.s name, .i idx] ces)
      else
        walkList ct name (idx + 1) rest errs
    | _ => walkList ct name (idx + 1) rest errs
termination_by (sizeOf xs, 0)

/-- The loop `for key, item in attribute_value.items()` over a dict
attribute, validating values that are model instances. -/
def walkDict (ct : ClassTable) (name : String) (kvs : List (String × Value))
    (errs : List ErrorDetail) : Except String (List ErrorDetail) :=
  match kvs with
  | [] => .ok errs
  | (k, x) :: rest =>
    match x with
    | .inst ccls cattrs =>
      if (ct ccls).isSome then
        match collectErrors ct ccls cattrs with
        | .error m => .error m
        | .ok ces =>
          walkDict ct name rest (errs ++ prefix_errors [.s name, .s k] ces)
      else
        walkDict ct name rest errs
    | _ => walkDict ct name rest errs
termination_by (sizeOf kvs, 0)

end

/-- The observable result of one call of the entry point: a fatal
exception propagated uncaught, a raised aggregate `ValidationError`
(carrying `self.__class__.__name__` and the collected list), or a normal
return (no return value). -/
inductive RunResult where
  | fatal (msg : String)
  | raised (title : String) (errors : List ErrorDetail)
  | returned
deriving Repr

/-- `mixins.py` `model_async_validate` on the instance
`Value.inst cls attrs`: collect all errors, then
`if len(validation_errors) > 0: raise ValidationError.from_exception_data(
self.__class__.__name__, validation_errors)`. -/
def model_async_validate (ct : ClassTable) (cls : String) (attrs : Attrs) :
    RunResult :=
  match collectErrors ct cls attrs with
  | .error m => .fatal m
  | .ok es => if es.length > 0 then .raised cls es else .returned

/-!
Registry construction: `metaclasses.py` `AsyncValidationModelMetaclass.__new__`.
A namespace attribute may carry field-validator metadata
(`pydantic_async_field_validator_config`: the bound field names and the
record) and/or model-validator metadata
(`pydantic_async_model_validator_config`: the record); the metaclass
appends the carrying attributes themselves and `mixins.py` re-extracts the
metadata with `getattr`, so the registry is modelled as holding the
extracted metadata directly.  `callable(config.func)` always holds in the
embedding, where `func` is a Lean function.
-/

/-- One attribute of the class body under construction, with its optional
validator metadata (absent metadata is the `(None, None)` / `None`
`getattr` default). -/
structure NamespaceAttr where
  field_meta : Option (List String × Validator FieldFunc)
  model_meta : Option (Validator ModelFunc)

/-- One iteration of the metaclass loop `for _attr_name, attr_value in
namespace.items()`: append the attribute's field-validator metadata and/or
model-validator metadata to the running lists, when present. -/
def metaclass_step
    (p : List (List String × Validator FieldFunc) × List (Validator ModelFunc))
    (a : NamespaceAttr) :
    List (List String × Validator FieldFunc) × List (Validator ModelFunc) :=
  let fv := match a.field_meta with
    | some m => p.1 ++ [m]
    | none => p.1
  let mv := match a.model_meta with
    | some m => p.2 ++ [m]
    | none => p.2
  (fv, mv)

/-- `AsyncValidationModelMetaclass.__new__`: start with empty lists, append
each direct base's already-computed lists in base-declaration order
(`for base in bases: ... += getattr(base, ..., [])`), then append the own
namespace attributes carrying metadata in declaration order. -/
def metaclass_new (bases : List ClassInfo) (ns : List NamespaceAttr) : ClassInfo :=
  let fv0 := bases.foldl (fun acc b => acc ++ b.field_validators) []
  let mv0 := bases.foldl (fun acc b => acc ++ b.model_validators) []
  let r := ns.foldl metaclass_step (fv0, mv0)
  ⟨r.1, r.2⟩

/-!
Decoration: `validators.py` `async_field_validator` / `async_model_validator`.
Each decorator builds the `Validator` record stored as function metadata:
the field decorator stores `(field_names, Validator(func=...))` (so
`skip_on_failure` keeps its default `False`), the model decorator stores
`Validator(func=..., skip_on_failure=skip_on_failure)`.
-/

/-- The metadata stored by `async_field_validator(field_name,
*additional_field_names)` on the decorated function. -/
def async_field_validator_meta (field_names : List String) (f : FieldFunc) :
    List String × Validator FieldFunc :=
  (field_names, ⟨f, false⟩)

/-- The metadata stored by `async_model_validator(skip_on_failure=...)`
on the decorated function. -/
def async_model_validator_meta (skip : Bool) (f : ModelFunc) : Validator ModelFunc :=
  ⟨f, skip⟩

/-!
Signature adapter: `utils.py` `make_generic_field_validator` /
`generic_field_validator_wrapper` and `make_generic_model_validator` /
`generic_model_validator_wrapper`.  The adapter only ever inspects
`signature(func).parameters.keys()`, so a user function is embedded as its
ordered list of declared parameter names (the receiver first).  A produced
wrapper is embedded as the list of keyword names it forwards to the user
function, in the source's fixed `value`, `field`, `config` order; an
adapter failure (`PydanticUserError`) is `Except.error` with the error
code `validator-signature`.
-/

/-- Python `set(xs) == set(ys)` on lists of parameter names. -/
def setEqv (xs ys : List String) : Bool :=
  xs.all (fun a => a ∈ ys) && ys.all (fun a => a ∈ xs)

/-- `utils.py` `all_field_validator_kwargs = {'value', 'field', 'config'}`. -/
def all_field_validator_kwargs : List String := ["value", "field", "config"]

/-- `utils.py` `all_model_validator_kwargs = {'config'}`. -/
def all_model_validator_kwargs : List String := ["config"]

/-- `generic_field_validator_wrapper`: branch on the declared non-receiver
parameter-name set exactly as the source's chain of set comparisons does,
returning the keyword names the produced wrapper forwards. -/
def generic_field_validator_wrapper (args : List String) :
    Except String (List String) :=
  let has_kwargs := "kwargs" ∈ args
  let args' := args.filter (fun a => a ≠ "kwargs")
  if ¬ args'.all (fun a => a ∈ all_field_validator_kwargs) then
    .error "validator-signature"
  else if has_kwargs then .ok ["value", "field", "config"]
  else if setEqv args' [] then .ok []
  else if setEqv args' ["value"] then .ok ["value"]
  else if setEqv args' ["field"] then .ok ["field"]
  else if setEqv args' ["value", "field"] then .ok ["value", "field"]
  else if setEqv args' ["config"] then .ok ["config"]
  else if setEqv args' ["value", "config"] then .ok ["value", "config"]
  else if setEqv args' ["field", "config"] then .ok ["field", "config"]
  else .ok ["value", "field", "config"]

/-- `make_generic_field_validator`: pop the receiver parameter, reject the
name `cls` with a `PydanticUserError`, then build the wrapper. -/
def make_generic_field_validator (first_arg : String) (args : List String) :
    Except String (List String) :=
  if first_arg = "cls" then .error "validator-signature"
  else generic_field_validator_wrapper args

/-- `generic_model_validator_wrapper`: the model-validator variant, whose
only recognized keyword is `config`. -/
def generic_model_validator_wrapper (args : List String) :
    Except String (List String) :=
  let has_kwargs := "kwargs" ∈ args
  let args' := args.filter (fun a => a ≠ "kwargs")
  if ¬ args'.all (fun a => a ∈ all_model_validator_kwargs) then
    .error "validator-signature"
  else if has_kwargs then .ok ["config"]
  else if setEqv args' [] then .ok []
  else .ok ["config"]

/-- `make_generic_model_validator`: pop the receiver, reject `cls`, then
build the model-validator wrapper. -/
def make_generic_model_validator (first_arg : String) (args : List String) :
    Except String (List String) :=
  if first_arg = "cls" then .error "validator-signature"
  else generic_model_validator_wrapper args

/-!
Mutation-aware engine.  Python validator bodies receive `self` by
reference and could in principle mutate `self.__dict__`; the engine itself
only reads attributes.  To express this frame property the engine is also
embedded with explicit state passing: each validator body returns, besides
its outcome, the instance state (`self.__dict__`) after the call, and the
engine threads that state exactly where the source would observe the
mutation (subsequent `getattr` calls, the recorded `input` values — both
evaluated after the call in the source — and the attribute walk, which
iterates the live `self.__dict__`).  Since a mutating validator may store
arbitrarily large child values, recursion is no longer structural; a fuel
parameter bounds the recursion depth, with exhaustion returning the state
unchanged and no errors. -/

/-- A field validator body that may mutate `self.__dict__`. -/
abbrev FieldFuncM := Attrs → Value → String → VConfig → FOutcome × Attrs

/-- A model validator body that may mutate `self.__dict__`. -/
abbrev ModelFuncM := Attrs → VConfig → FOutcome × Attrs

/-- Class registry over mutation-aware validator bodies. -/
structure ClassInfoM where
  field_validators : List (List String × Validator FieldFuncM)
  model_validators : List (Validator ModelFuncM)

/-- Class table over mutation-aware registries. -/
abbrev ClassTableM := String → Option ClassInfoM

/-- Mutation-aware inner field loop: thread `self.__dict__` through the
calls; the recorded `input` is read from the post-call state, as the
source's `except` block does. -/
def runFieldNamesM (f : FieldFuncM) (cfg : VConfig) :
    List String → Attrs → List ErrorDetail →
    Except String (List ErrorDetail × Attrs)
  | [], attrs, errs => .ok (errs, attrs)
  | name :: rest, attrs, errs =>
    match f attrs (getattrD attrs name) name cfg with
    | (.ok, attrs') => runFieldNamesM f cfg rest attrs' errs
    | (.valueError m, attrs') =>
      runFieldNamesM f cfg rest attrs' (errs ++ [fieldErrorEntry attrs' name m])
    | (.assertionError m, attrs') =>
      runFieldNamesM f cfg rest attrs' (errs ++ [fieldErrorEntry attrs' name m])
    | (.fatal m, _) => .error m

/-- Mutation-aware outer field loop. -/
def runFieldValidatorsM :
    List (List String × Validator FieldFuncM) → Attrs → List ErrorDetail →
    Except String (List ErrorDetail × Attrs)
  | [], attrs, errs => .ok (errs, attrs)
  | (names, v) :: rest, attrs, errs =>
    match runFieldNamesM v.func v.config names attrs errs with
    | .ok (errs', attrs') => runFieldValidatorsM rest attrs' errs'
    | .error m => .error m

/-- Mutation-aware model-validator loop; the recorded `input` dict is the
post-call state. -/
def runModelValidatorsM :
    List (Validator ModelFuncM) → Attrs → List ErrorDetail →
    Except String (List ErrorDetail × Attrs)
  | [], attrs, errs => .ok (errs, attrs)
  | v :: rest, attrs, errs =>
    match v.func attrs v.config with
    | (.ok, attrs') => runModelValidatorsM rest attrs' errs
    | (.valueError m, attrs') =>
      runModelValidatorsM rest attrs' (errs ++ [modelErrorEntry attrs' m])
    | (.assertionError m, attrs') =>
      runModelValidatorsM rest attrs' (errs ++ [modelErrorEntry attrs' m])
    | (.fatal m, _) => .error m

/-- `isinstance` check against the mutation-aware table. -/
def isValidatableM (ct : ClassTableM) : Value → Bool
  | .inst cls _ => (ct cls).isSome
  | _ => false

mutual

/-- Mutation-aware `model_async_validate` error collection, returning the
collected errors together with the final instance state. -/
def collectErrorsM (ct : ClassTableM) : Nat → String → Attrs →
    Except String (List ErrorDetail × Attrs)
  | 0, _, attrs => .ok ([], attrs)
  | fuel + 1, cls, attrs =>
    let info := (ct cls).getD ⟨[], []⟩
    match runFieldValidatorsM info.field_validators attrs [] with
    | .error m => .error m
    | .ok (errs1, attrs1) =>
      match runModelValidatorsM info.model_validators attrs1 errs1 with
      | .error m => .error m
      | .ok (errs2, attrs2) => walkAttrsM ct fuel attrs2 errs2
termination_by fuel => (fuel, 0, 0)

/-- Mutation-aware attribute walk: rebuilds the attribute list with each
child's post-validation state. -/
def walkAttrsM (ct : ClassTableM) (fuel : Nat) :
    Attrs → List ErrorDetail → Except String (List ErrorDetail × Attrs)
  | [], errs => .ok (errs, [])
  | (name, v) :: rest, errs =>
    match walkAttrM ct fuel name v errs with
    | .error m => .error m
    | .ok (errs', v') =>
      match walkAttrsM ct fuel rest errs' with
      | .error m => .error m
      | .ok (errs'', rest') => .ok (errs'', (name, v') :: rest')
termination_by l => (fuel, 2, sizeOf l)

/-- Mutation-aware per-attribute body. -/
def walkAttrM (ct : ClassTableM) (fuel : Nat) (name : String) (v : Value)
    (errs : List ErrorDetail) : Except String (List ErrorDetail × Value) :=
  match v with
  | .inst ccls cattrs =>
    if (ct ccls).isSome then
      match collectErrorsM ct fuel ccls cattrs with
      | .error m => .error m
      | .ok (ces, cattrs') =>
        .ok (errs ++ prefix_errors [.s name] ces, .inst ccls cattrs')
    else
      .ok (errs, v)
  | .vlist xs =>
    match walkListM ct fuel name 0 xs errs with
    | .error m => .error m
    | .ok (errs', xs') => .ok (errs', .vlist xs')
  | .vdict kvs =>
    match walkDictM ct fuel name kvs errs with
    | .error m => .error m
    | .ok (errs', kvs') => .ok (errs', .vdict kvs')
  | _ => .ok (errs, v)
termination_by (fuel, 1, sizeOf v)

/-- Mutation-aware list walk, rebuilding the element list. -/
def walkListM (ct : ClassTableM) (fuel : Nat) (name : String) (idx : Nat) :
    List Value → List ErrorDetail →
    Except String (List ErrorDetail × List Value)
  | [], errs => .ok (errs, [])
  | x :: rest, errs =>
    match x with
    | .inst ccls cattrs =>
      if (ct ccls).isSome then
        match collectErrorsM ct fuel ccls cattrs with
        | .error m => .error m
        | .ok (ces, cattrs') =>
          match walkListM ct fuel name (idx + 1) rest
              (errs ++ prefix_errors [.s name, .i idx] ces) with
          | .error m => .error m
          | .ok (errs', rest') => .ok (errs', .inst ccls cattrs' :: rest')
      else
        match walkListM ct fuel name (idx + 1) rest errs with
        | .error m => .error m
        | .ok (errs', rest') => .ok (errs', x :: rest')
    | _ =>
      match walkListM ct fuel name (idx + 1) rest errs with
      | .error m => .error m
      | .ok (errs', rest') => .ok (errs', x :: rest')
termination_by xs => (fuel, 0, sizeOf xs)

/-- Mutation-aware dict walk, rebuilding the key-value list. -/
def walkDictM (ct : ClassTableM) (fuel : Nat) (name : String) :
    List (String × Value) → List ErrorDetail →
    Except String (List ErrorDetail × List (String × Value))
  | [], errs => .ok (errs, [])
  | (k, x) :: rest, errs =>
    match x with
    | .inst ccls cattrs =>
      if (ct ccls).isSome then
        match collectErrorsM ct fuel ccls cattrs with
        | .error m => .error m
        | .ok (ces, cattrs') =>
          match walkDictM ct fuel name rest
              (errs ++ prefix_errors [.s name, .s k] ces) with
          | .error m => .error m
          | .ok (errs', rest') => .ok (errs', (k, .inst ccls cattrs') :: rest')
      else
        match walkDictM ct fuel name rest errs with
        | .error m => .error m
        | .ok (errs', rest') => .ok (errs', (k, x) :: rest')
    | _ =>
      match walkDictM ct fuel name rest errs with
      | .error m => .error m
      | .ok (errs', rest') => .ok (errs', (k, x) :: rest')
termination_by kvs => (fuel, 0, sizeOf kvs)

end

/-- A field validator body performs no mutation of `self.__dict__`. -/
def FieldFuncPreserves (f : FieldFuncM) : Prop :=
  ∀ a v n c, (f a v n c).2 = a

/-- A model validator body performs no mutation of `self.__dict__`. -/
def ModelFuncPreserves (f : ModelFuncM) : Prop :=
  ∀ a c, (f a c).2 = a

/-- Every validator body registered in the class table is non-mutating. -/
def TablePreserves (ct : ClassTableM) : Prop :=
  ∀ cls info, ct cls = some info →
    (∀ b ∈ info.field_validators, FieldFuncPreserves b.2.func) ∧
    (∀ v ∈ info.model_validators, ModelFuncPreserves v.func)

/-- Prepend already-collected errors to the result of a sub-run (used to
relate the source's single mutable `validation_errors` list to the
per-phase decomposition of the run). -/
def errShift (errs : List ErrorDetail) :
    Except String (List ErrorDetail) → Except String (List ErrorDetail)
  | .error m => .error m
  | .ok es => .ok (errs ++ es)

/-!
Concrete scenarios used to evaluate the engine on the inputs the claims
and the repository tests talk about.
-/

/-- An always-failing field validator body. -/
def exFailField : FieldFunc := fun _ _ _ _ => .valueError "field bad"

/-- An always-failing model validator body. -/
def exFailModel : ModelFunc := fun _ _ => .valueError "model bad"

/-- A model validator record declared with `skip_on_failure=True`
(`async_model_validator(skip_on_failure=True)`). -/
def exSkipRecord : Validator ModelFunc := async_model_validator_meta true exFailModel

/-- Class `M`: one always-failing field validator bound to `f` plus the
skip-on-failure model validator. -/
def exCt1 : ClassTable := fun cls =>
  if cls = "M" then
    some ⟨[async_field_validator_meta ["f"] exFailField], [exSkipRecord]⟩
  else none

/-- An instance of `M` with `f = 'x'`. -/
def exAttrs1 : Attrs := [("f", .prim "x")]

/-- A field validator body failing exactly on the value `'bad'`. -/
def exChildCheck : FieldFunc := fun _ v _ _ =>
  match v with
  | .prim "bad" => .valueError "invalid"
  | _ => .ok

/-- Class `Child`: one field validator on `field`. -/
def exChildInfo : ClassInfo := ⟨[async_field_validator_meta ["field"] exChildCheck], []⟩

/-- Table with the validator-less class `Parent` and the class `Child`. -/
def exCt4 : ClassTable := fun cls =>
  if cls = "Child" then some exChildInfo
  else if cls = "Parent" then some ⟨[], []⟩
  else none

/-- An invalid `Child` instance. -/
def exBadChild : Value := .inst "Child" [("field", .prim "bad")]

/-- A `Parent` instance holding one invalid child directly, one at list
index 0, and one under mapping key `k`. -/
def exParentAttrs : Attrs :=
  [("direct", exBadChild), ("seq", .vlist [exBadChild]), ("map", .vdict [("k", exBadChild)])]

/-- A mutation-free but failing field validator body for the
mutation-aware engine. -/
def exPreservingField : FieldFuncM := fun a _ _ _ => (.valueError "bad", a)

/-- Mutation-aware table for class `W` with one mutation-free validator. -/
def exCtW : ClassTableM := fun cls =>
  if cls = "W" then some ⟨[(["x"], ⟨exPreservingField, false⟩)], []⟩
  else none

/-- An instance of `W`. -/
def exAttrsW : Attrs := [("x", .prim "p")]

/-!
Claim theorems.
-/

/-- Claim C1, evaluated on the code: with one always-failing field
validator and one model validator declared with `skip_on_failure=True`,
the aggregate raised by `model_async_validate` contains TWO entries — the
field error and the model error — because the model-validator loop of
`mixins.py` never consults `skip_on_failure`: the record's flag is `True`,
yet its body is invoked while the running error list is non-empty, so the
claimed single-entry aggregate does not hold on this code. -/
theorem C1_skip_on_failure_not_honored :
    exSkipRecord.skip_on_failure = true ∧
    model_async_validate exCt1 "M" exAttrs1 =
      .raised "M" [fieldErrorEntry exAttrs1 "f" "field bad",
                   modelErrorEntry exAttrs1 "model bad"] := by
  refine ⟨rfl, ?_⟩
  simp [model_async_validate, collectErrors, walkAttrs, walkAttr, runFieldValidators,
        runFieldNames, runModelValidators, exCt1, exAttrs1, exFailField, exFailModel,
        exSkipRecord, async_field_validator_meta, async_model_validator_meta,
        Validator.config, getattrD]

/-- Claim C2, evaluated on the code: the `Validator` record of
`validators.py` has exactly the slots `func` and `skip_on_failure` — the
declaration helpers store nothing else, two records agreeing on those two
slots are the same record, and the configuration a validator body can
observe through its `config` argument is determined by the
`skip_on_failure` flag alone.  There is no `extra` mapping to round-trip:
a declaration passing `extra={"some": "thing"}` is not expressible against
this code (the decorators accept no such options). -/
theorem C2_validator_record_has_no_extra :
    (∀ (names : List String) (f : FieldFunc),
        async_field_validator_meta names f = (names, ⟨f, false⟩)) ∧
    (∀ (skip : Bool) (f : ModelFunc), async_model_validator_meta skip f = ⟨f, skip⟩) ∧
    (∀ (v w : Validator ModelFunc),
        v.func = w.func → v.skip_on_failure = w.skip_on_failure → v = w) ∧
    (∀ (c c' : VConfig), c.skip_on_failure = c'.skip_on_failure → c = c') := by
  refine ⟨fun _ _ => rfl, fun _ _ => rfl, ?_, ?_⟩
  · rintro ⟨vf, vs⟩ ⟨wf, ws⟩ h1 h2
    simp only at h1 h2
    rw [h1, h2]
  · rintro ⟨c⟩ ⟨c'⟩ h
    simp only at h
    rw [h]

/-- Witness for C2 at concrete records. -/
theorem C2_validator_record_has_no_extra_witness :
    (exSkipRecord.func = exSkipRecord.func ∧
      exSkipRecord.skip_on_failure = exSkipRecord.skip_on_failure) ∧
    exSkipRecord = exSkipRecord :=
  ⟨⟨rfl, rfl⟩, C2_validator_record_has_no_extra.2.2.1 exSkipRecord exSkipRecord rfl rfl⟩

/-- Claim C4, evaluated on the code: the positive part of the claim holds
for a list-valued attribute — a parent with one invalid child directly,
one at list index 0 and one under mapping key `k` yields exactly the three
errors with locations `("direct","field")`, `("seq",0,"field")` and
`("map","k","field")` — but a child inside a TUPLE attribute is never
descended into (`mixins.py` only tests `isinstance(attribute_value, list)`
and `isinstance(attribute_value, dict)`), so the same invalid child inside
a tuple yields no error at all, contradicting the claim's universally
quantified sequence case (and the repository test that expects
`('something_tuple', 0, 'name')`). -/
theorem C4_tuple_children_not_descended :
    collectErrors exCt4 "Parent" exParentAttrs =
      .ok [⟨"value_error", "invalid", [.s "direct", .s "field"], .prim "bad"⟩,
           ⟨"value_error", "invalid", [.s "seq", .i 0, .s "field"], .prim "bad"⟩,
           ⟨"value_error", "invalid", [.s "map", .s "k", .s "field"], .prim "bad"⟩] ∧
    collectErrors exCt4 "Parent" [("seq", .vtuple [exBadChild])] = .ok [] := by
  constructor
  · simp [collectErrors, walkAttrs, walkAttr, walkList, walkDict, runFieldValidators,
          runFieldNames, runModelValidators, exCt4, exChildInfo, exChildCheck, exBadChild,
          exParentAttrs, async_field_validator_meta, Validator.config, getattrD,
          prefix_errors, fieldErrorEntry]
  · simp [collectErrors, walkAttrs, walkAttr, runFieldValidators, runModelValidators, exCt4]

/-- Claim C5: whenever error collection completes without a fatal
exception, the entry point raises the aggregate `ValidationError` if and
only if the accumulated list is non-empty; the aggregate carries the whole
list and the instance's class name, and on an empty list the entry point
returns normally, producing no value. -/
theorem C5_aggregate_raised_iff_errors_nonempty :
    ∀ (ct : ClassTable) (cls : String) (attrs : Attrs) (es : List ErrorDetail),
      collectErrors ct cls attrs = .ok es →
      (model_async_validate ct cls attrs = .returned ↔ es = []) ∧
      (es ≠ [] → model_async_validate ct cls attrs = .raised cls es) := by
  intro ct cls attrs es h
  unfold model_async_validate
  rw [h]
  cases es with
  | nil => simp
  | cons e rest => simp

/-- Witness for C5: the `M` scenario collects two errors and raises. -/
theorem C5_aggregate_raised_iff_errors_nonempty_witness :
    collectErrors exCt1 "M" exAttrs1 =
      .ok [fieldErrorEntry exAttrs1 "f" "field bad",
           modelErrorEntry exAttrs1 "model bad"] ∧
    model_async_validate exCt1 "M" exAttrs1 =
      .raised "M" [fieldErrorEntry exAttrs1 "f" "field bad",
                   modelErrorEntry exAttrs1 "model bad"] := by
  have h : collectErrors exCt1 "M" exAttrs1 =
      .ok [fieldErrorEntry exAttrs1 "f" "field bad",
           modelErrorEntry exAttrs1 "model bad"] := by
    simp [collectErrors, walkAttrs, walkAttr, runFieldValidators,
          runFieldNames, runModelValidators, exCt1, exAttrs1, exFailField, exFailModel,
          exSkipRecord, async_field_validator_meta, async_model_validator_meta,
          Validator.config, getattrD]
  exact ⟨h, (C5_aggregate_raised_iff_errors_nonempty exCt1 "M" exAttrs1
      [fieldErrorEntry exAttrs1 "f" "field bad",
       modelErrorEntry exAttrs1 "model bad"] h).2 (by simp)⟩

/-- Claim C3: a caught field-validator failure (raised `ValueError` or
`AssertionError`) on field `name` is captured as exactly one entry with
location `(name,)` and input the current value of the field on the
instance; a caught model-validator failure is captured as exactly one
entry with location `('__root__',)` and input the instance's full
attribute mapping; for any field name a pydantic model can have (never
equal to the `__root__` sentinel), the two entry kinds are distinguishable
by their final location segment. -/
theorem C3_error_entry_scoping :
    (∀ (f : FieldFunc) (cfg : VConfig) (attrs : Attrs) (name m : String)
        (errs : List ErrorDetail),
        (f attrs (getattrD attrs name) name cfg = .valueError m ∨
         f attrs (getattrD attrs name) name cfg = .assertionError m) →
        runFieldNames f cfg attrs [name] errs =
          .ok (errs ++ [{ type := "value_error", msg := m, loc := [.s name],
                          input := getattrD attrs name }])) ∧
    (∀ (g : Validator ModelFunc) (attrs : Attrs) (m : String)
        (errs : List ErrorDetail),
        (g.func attrs g.config = .valueError m ∨
         g.func attrs g.config = .assertionError m) →
        runModelValidators attrs [g] errs =
          .ok (errs ++ [{ type := "value_error", msg := m, loc := [.s "__root__"],
                          input := .vdict attrs }])) ∧
    (∀ (attrs : Attrs) (name m m' : String), name ≠ "__root__" →
        (fieldErrorEntry attrs name m).loc.getLast? ≠
          (modelErrorEntry attrs m').loc.getLast?) := by
  refine ⟨?_, ?_, ?_⟩
  · intro f cfg attrs name m errs h
    rcases h with h | h <;> simp [runFieldNames, h, fieldErrorEntry]
  · intro g attrs m errs h
    rcases h with h | h <;> simp [runModelValidators, h, modelErrorEntry]
  · intro attrs name m m' h
    simp [fieldErrorEntry, modelErrorEntry, h]

/-- Witness for C3: the always-failing field validator on field `f` and
the always-failing model validator of the `M` scenario. -/
theorem C3_error_entry_scoping_witness :
    runFieldNames exFailField ⟨false⟩ exAttrs1 ["f"] [] =
      .ok [{ type := "value_error", msg := "field bad", loc := [.s "f"],
             input := getattrD exAttrs1 "f" }] ∧
    runModelValidators exAttrs1 [exSkipRecord] [] =
      .ok [{ type := "value_error", msg := "model bad", loc := [.s "__root__"],
             input := .vdict exAttrs1 }] ∧
    (fieldErrorEntry exAttrs1 "f" "field bad").loc.getLast? ≠
      (modelErrorEntry exAttrs1 "model bad").loc.getLast? :=
  ⟨C3_error_entry_scoping.1 exFailField ⟨false⟩ exAttrs1 "f" "field bad" []
      (Or.inl rfl),
   C3_error_entry_scoping.2.1 exSkipRecord exAttrs1 "model bad" [] (Or.inl rfl),
   C3_error_entry_scoping.2.2 exAttrs1 "f" "field bad" "model bad" (by decide)⟩

/-- Claim C6: a `ValueError` or `AssertionError` raised by a validator
body is caught and converted to one error entry, after which execution
continues with the remaining fields and validators (the run's result is
the run of the remaining ones from the extended error list); an exception
of any other class aborts at once — the result is that exception
regardless of the remaining validators — and it propagates out of the
entry point uncaught, in every phase. -/
theorem C6_exception_policy :
    (∀ (f : FieldFunc) (cfg : VConfig) (attrs : Attrs) (name m : String)
        (rest : List String) (errs : List ErrorDetail),
        (f attrs (getattrD attrs name) name cfg = .valueError m ∨
         f attrs (getattrD attrs name) name cfg = .assertionError m) →
        runFieldNames f cfg attrs (name :: rest) errs =
          runFieldNames f cfg attrs rest (errs ++ [fieldErrorEntry attrs name m])) ∧
    (∀ (f : FieldFunc) (cfg : VConfig) (attrs : Attrs) (name m : String)
        (rest : List String) (errs : List ErrorDetail),
        f attrs (getattrD attrs name) name cfg = .fatal m →
        runFieldNames f cfg attrs (name :: rest) errs = .error m) ∧
    (∀ (g : Validator ModelFunc) (rest : List (Validator ModelFunc))
        (attrs : Attrs) (m : String) (errs : List ErrorDetail),
        (g.func attrs g.config = .valueError m ∨
         g.func attrs g.config = .assertionError m) →
        runModelValidators attrs (g :: rest) errs =
          runModelValidators attrs rest (errs ++ [modelErrorEntry attrs m])) ∧
    (∀ (g : Validator ModelFunc) (rest : List (Validator ModelFunc))
        (attrs : Attrs) (m : String) (errs : List ErrorDetail),
        g.func attrs g.config = .fatal m →
        runModelValidators attrs (g :: rest) errs = .error m) ∧
    (∀ (ct : ClassTable) (cls : String) (attrs : Attrs) (m : String),
        runFieldValidators attrs
            ((ct cls).getD ⟨[], []⟩).field_validators [] = .error m →
        model_async_validate ct cls attrs = .fatal m) ∧
    (∀ (ct : ClassTable) (cls : String) (attrs : Attrs) (m : String)
        (errs1 : List ErrorDetail),
        runFieldValidators attrs
            ((ct cls).getD ⟨[], []⟩).field_validators [] = .ok errs1 →
        runModelValidators attrs
            ((ct cls).getD ⟨[], []⟩).model_validators errs1 = .error m →
        model_async_validate ct cls attrs = .fatal m) ∧
    (∀ (ct : ClassTable) (cls : String) (attrs : Attrs) (m : String)
        (errs1 errs2 : List ErrorDetail),
        runFieldValidators attrs
            ((ct cls).getD ⟨[], []⟩).field_validators [] = .ok errs1 →
        runModelValidators attrs
            ((ct cls).getD ⟨[], []⟩).model_validators errs1 = .ok errs2 →
        walkAttrs ct attrs errs2 = .error m →
        model_async_validate ct cls attrs = .fatal m) := by
  refine ⟨?_, ?_, ?_, ?_, ?_, ?_, ?_⟩
  · intro f cfg attrs name m rest errs h
    rcases h with h | h <;> simp [runFieldNames, h]
  · intro f cfg attrs name m rest errs h
    simp [runFieldNames, h]
  · intro g rest attrs m errs h
    rcases h with h | h <;> simp [runModelValidators, h]
  · intro g rest attrs m errs h
    simp [runModelValidators, h]
  · intro ct cls attrs m h
    simp [model_async_validate, collectErrors, h]
  · intro ct cls attrs m errs1 h1 h2
    simp [model_async_validate, collectErrors, h1, h2]
  · intro ct cls attrs m errs1 errs2 h1 h2 h3
    simp [model_async_validate, collectErrors, h1, h2, h3]

/-- Witness for C6: a fatally-failing field validator aborts the run of
the `M` scenario's instance, and the caught failures of the `M` scenario
continue. -/
theorem C6_exception_policy_witness :
    runFieldNames exFailField ⟨false⟩ exAttrs1 ["f", "g"] [] =
      runFieldNames exFailField ⟨false⟩ exAttrs1 ["g"]
        ([] ++ [fieldErrorEntry exAttrs1 "f" "field bad"]) ∧
    runFieldNames (fun _ _ _ _ => .fatal "boom") ⟨false⟩ exAttrs1 ["f", "g"] [] =
      .error "boom" :=
  ⟨C6_exception_policy.1 exFailField ⟨false⟩ exAttrs1 "f" "field bad" ["g"] []
      (Or.inl rfl),
   C6_exception_policy.2.1 (fun _ _ _ _ => .fatal "boom") ⟨false⟩ exAttrs1 "f" "boom"
      ["g"] [] rfl⟩

/-- The base-registry accumulation loop of the metaclass appends, in
order, each base's list to the accumulator. -/
theorem foldl_append_eq {α β : Type} (g : β → List α) (l : List β) :
    ∀ acc : List α, l.foldl (fun a b => a ++ g b) acc = acc ++ (l.map g).flatten := by
  induction l with
  | nil => intro acc; simp
  | cons b t ih => intro acc; simp [ih]

/-- The namespace scan of the metaclass appends, in declaration order, the
field-validator metadata and the model-validator metadata it finds. -/
theorem metaclass_step_foldl (ns : List NamespaceAttr) :
    ∀ fv mv, ns.foldl metaclass_step (fv, mv) =
      (fv ++ ns.filterMap (fun a => a.field_meta),
       mv ++ ns.filterMap (fun a => a.model_meta)) := by
  induction ns with
  | nil => intro fv mv; simp
  | cons a t ih =>
    intro fv mv
    simp only [List.foldl_cons, List.filterMap_cons]
    cases hf : a.field_meta <;> cases hm : a.model_meta <;>
      simp [metaclass_step, hf, hm, ih]

/-- Claim C7: the registries computed by the class-construction hook are
the concatenation, over the direct bases in declaration order, of each
base's already-computed lists, followed by the type's own decorated
attributes in declaration order; consequently a subtype with no validators
of its own has exactly its base's registries, and a subtype adding one
model validator has the base's model validators followed by its own. -/
theorem C7_registry_inheritance_composition :
    (∀ (bases : List ClassInfo) (ns : List NamespaceAttr),
      (metaclass_new bases ns).field_validators =
        (bases.map (fun b => b.field_validators)).flatten ++
          ns.filterMap (fun a => a.field_meta) ∧
      (metaclass_new bases ns).model_validators =
        (bases.map (fun b => b.model_validators)).flatten ++
          ns.filterMap (fun a => a.model_meta)) ∧
    (∀ b : ClassInfo, metaclass_new [b] [] = b) ∧
    (∀ (b : ClassInfo) (v : Validator ModelFunc),
      (metaclass_new [b] [⟨none, some v⟩]).field_validators = b.field_validators ∧
      (metaclass_new [b] [⟨none, some v⟩]).model_validators =
        b.model_validators ++ [v]) := by
  have hmain : ∀ (bases : List ClassInfo) (ns : List NamespaceAttr),
      (metaclass_new bases ns).field_validators =
        (bases.map (fun b => b.field_validators)).flatten ++
          ns.filterMap (fun a => a.field_meta) ∧
      (metaclass_new bases ns).model_validators =
        (bases.map (fun b => b.model_validators)).flatten ++
          ns.filterMap (fun a => a.model_meta) := by
    intro bases ns
    simp [metaclass_new, foldl_append_eq, metaclass_step_foldl]
  refine ⟨hmain, ?_, ?_⟩
  · intro b
    obtain ⟨bf, bm⟩ := b
    simp [metaclass_new, metaclass_step_foldl, foldl_append_eq]
  · intro b v
    have h := hmain [b] [⟨none, some v⟩]
    simpa using h

/-- Two name lists with the same elements are `set`-equal. -/
theorem setEqv_true {args C : List String}
    (h1 : ∀ a ∈ args, a ∈ C) (h2 : ∀ a ∈ C, a ∈ args) : setEqv args C = true := by
  simp [setEqv, List.all_eq_true]
  exact ⟨h1, h2⟩

/-- A member of the left list missing on the right refutes set-equality. -/
theorem setEqv_false_left {args C : List String} (w : String)
    (hw : w ∈ args) (hnc : w ∉ C) : setEqv args C = false := by
  simp [setEqv, List.all_eq_false, List.all_eq_true]
  intro h
  exact absurd (h w hw) hnc

/-- Removing `kwargs` from a list not containing it changes nothing. -/
theorem filter_ne_kwargs_eq {args : List String} (hk : "kwargs" ∉ args) :
    args.filter (fun a => a ≠ "kwargs") = args := by
  rw [List.filter_eq_self]
  intro a ha
  simp
  rintro rfl
  exact hk ha

/-- When every declared name is `kwargs` or recognized, the field wrapper
construction succeeds and forwards all recognized keywords if `kwargs` is
declared, else exactly the declared ones. -/
theorem gfvw_ok (args : List String)
    (hsub : ∀ a ∈ args, a = "kwargs" ∨ a ∈ all_field_validator_kwargs) :
    generic_field_validator_wrapper args =
      .ok (if "kwargs" ∈ args then all_field_validator_kwargs
           else all_field_validator_kwargs.filter (fun a => a ∈ args)) := by
  have hall : ((args.filter (fun a => a ≠ "kwargs")).all
      (fun a => a ∈ all_field_validator_kwargs)) = true := by
    rw [List.all_eq_true]
    intro a ha
    rw [List.mem_filter] at ha
    rcases hsub a ha.1 with h | h
    · exfalso
      have h2 := ha.2
      simp [h] at h2
    · simp [h]
  by_cases hk : "kwargs" ∈ args
  · simp only [generic_field_validator_wrapper]
    rw [hall]
    simp [hk, all_field_validator_kwargs]
  · have hfe : args.filter (fun a => a ≠ "kwargs") = args := filter_ne_kwargs_eq hk
    rw [hfe] at hall
    have hsub' : ∀ a ∈ args, a ∈ all_field_validator_kwargs := by
      intro a ha
      rcases hsub a ha with h | h
      · exact absurd (h ▸ ha) hk
      · exact h
    have hel : ∀ a ∈ args, a = "value" ∨ a = "field" ∨ a = "config" := by
      intro a ha
      simpa [all_field_validator_kwargs] using hsub' a ha
    by_cases hv : "value" ∈ args <;> by_cases hf : "field" ∈ args <;>
      by_cases hc : "config" ∈ args
    · have e0 : setEqv args [] = false := setEqv_false_left "value" hv (by simp)
      have e1 : setEqv args ["value"] = false := setEqv_false_left "field" hf (by simp)
      have e2 : setEqv args ["field"] = false := setEqv_false_left "value" hv (by simp)
      have e3 : setEqv args ["value", "field"] = false :=
        setEqv_false_left "config" hc (by simp)
      have e4 : setEqv args ["config"] = false := setEqv_false_left "value" hv (by simp)
      have e5 : setEqv args ["value", "config"] = false :=
        setEqv_false_left "field" hf (by simp)
      have e6 : setEqv args ["field", "config"] = false :=
        setEqv_false_left "value" hv (by simp)
      simp only [generic_field_validator_wrapper]
      rw [hfe, hall]
      simp [hk, e0, e1, e2, e3, e4, e5, e6, all_field_validator_kwargs, hv, hf, hc]
    · have e0 : setEqv args [] = false := setEqv_false_left "value" hv (by simp)
      have e1 : setEqv args ["value"] = false := setEqv_false_left "field" hf (by simp)
      have e2 : setEqv args ["field"] = false := setEqv_false_left "value" hv (by simp)
      have e3 : setEqv args ["value", "field"] = true := by
        refine setEqv_true ?_ ?_
        · intro a ha
          rcases hel a ha with rfl | rfl | rfl
          · simp
          · simp
          · exact absurd ha hc
        · intro a ha
          simp at ha
          rcases ha with rfl | rfl
          · exact hv
          · exact hf
      simp only [generic_field_validator_wrapper]
      rw [hfe, hall]
      simp [hk, e0, e1, e2, e3, all_field_validator_kwargs, hv, hf, hc]
    · have e0 : setEqv args [] = false := setEqv_false_left "value" hv (by simp)
      have e1 : setEqv args ["value"] = false := setEqv_false_left "config" hc (by simp)
      have e2 : setEqv args ["field"] = false := setEqv_false_left "value" hv (by simp)
      have e3 : setEqv args ["value", "field"] = false :=
        setEqv_false_left "config" hc (by simp)
      have e4 : setEqv args ["config"] = false := setEqv_false_left "value" hv (by simp)
      have e5 : setEqv args ["value", "config"] = true := by
        refine setEqv_true ?_ ?_
        · intro a ha
          rcases hel a ha with rfl | rfl | rfl
          · simp
          · exact absurd ha hf
          · simp
        · intro a ha
          simp at ha
          rcases ha with rfl | rfl
          · exact hv
          · exact hc
      simp only [generic_field_validator_wrapper]
      rw [hfe, hall]
      simp [hk, e0, e1, e2, e3, e4, e5, all_field_validator_kwargs, hv, hf, hc]
    · have e0 : setEqv args [] = false := setEqv_false_left "value" hv (by simp)
      have e1 : setEqv args ["value"] = true := by
        refine setEqv_true ?_ ?_
        · intro a ha
          rcases hel a ha with rfl | rfl | rfl
          · simp
          · exact absurd ha hf
          · exact absurd ha hc
        · intro a ha
          simp at ha
          subst ha
          exact hv
      simp only [generic_field_validator_wrapper]
      rw [hfe, hall]
      simp [hk, e0, e1, all_field_validator_kwargs, hv, hf, hc]
    · have e0 : setEqv args [] = false := setEqv_false_left "field" hf (by simp)
      have e1 : setEqv args ["value"] = false := setEqv_false_left "field" hf (by simp)
      have e2 : setEqv args ["field"] = false := setEqv_false_left "config" hc (by simp)
      have e3 : setEqv args ["value", "field"] = false :=
        setEqv_false_left "config" hc (by simp)
      have e4 : setEqv args ["config"] = false := setEqv_false_left "field" hf (by simp)
      have e5 : setEqv args ["value", "config"] = false :=
        setEqv_false_left "field" hf (by simp)
      have e6 : setEqv args ["field", "config"] = true := by
        refine setEqv_true ?_ ?_
        · intro a ha
          rcases hel a ha with rfl | rfl | rfl
          · exact absurd ha hv
          · simp
          · simp
        · intro a ha
          simp at ha
          rcases ha with rfl | rfl
          · exact hf
          · exact hc
      simp only [generic_field_validator_wrapper]
      rw [hfe, hall]
      simp [hk, e0, e1, e2, e3, e4, e5, e6, all_field_validator_kwargs, hv, hf, hc]
    · have e0 : setEqv args [] = false := setEqv_false_left "field" hf (by simp)
      have e1 : setEqv args ["value"] = false := setEqv_false_left "field" hf (by simp)
      have e2 : setEqv args ["field"] = true := by
        refine setEqv_true ?_ ?_
        · intro a ha
          rcases hel a ha with rfl | rfl | rfl
          · exact absurd ha hv
          · simp
          · exact absurd ha hc
        · intro a ha
          simp at ha
          subst ha
          exact hf
      simp only [generic_field_validator_wrapper]
      rw [hfe, hall]
      simp [hk, e0, e1, e2, all_field_validator_kwargs, hv, hf, hc]
    · have e0 : setEqv args [] = false := setEqv_false_left "config" hc (by simp)
      have e1 : setEqv args ["value"] = false := setEqv_false_left "config" hc (by simp)
      have e2 : setEqv args ["field"] = false := setEqv_false_left "config" hc (by simp)
      have e3 : setEqv args ["value", "field"] = false :=
        setEqv_false_left "config" hc (by simp)
      have e4 : setEqv args ["config"] = true := by
        refine setEqv_true ?_ ?_
        · intro a ha
          rcases hel a ha with rfl | rfl | rfl
          · exact absurd ha hv
          · exact absurd ha hf
          · simp
        · intro a ha
          simp at ha
          subst ha
          exact hc
      simp only [generic_field_validator_wrapper]
      rw [hfe, hall]
      simp [hk, e0, e1, e2, e3, e4, all_field_validator_kwargs, hv, hf, hc]
    · have hnil : args = [] := by
        rw [List.eq_nil_iff_forall_not_mem]
        intro a ha
        rcases hel a ha with rfl | rfl | rfl
        · exact hv ha
        · exact hf ha
        · exact hc ha
      subst hnil
      simp [generic_field_validator_wrapper, setEqv, all_field_validator_kwargs]

/-- A declared name that is neither `kwargs` nor recognized makes the
field wrapper construction fail, whether or not `kwargs` is declared. -/
theorem gfvw_error (args : List String) (a0 : String) (ha : a0 ∈ args)
    (hk0 : a0 ≠ "kwargs") (hb : a0 ∉ all_field_validator_kwargs) :
    generic_field_validator_wrapper args = .error "validator-signature" := by
  have hall : ((args.filter (fun a => a ≠ "kwargs")).all
      (fun a => a ∈ all_field_validator_kwargs)) = false := by
    rw [List.all_eq_false]
    refine ⟨a0, ?_, by simp [hb]⟩
    rw [List.mem_filter]
    exact ⟨ha, by simp [hk0]⟩
  simp only [generic_field_validator_wrapper]
  rw [hall]
  simp

/-- Model-validator analogue of `gfvw_ok`. -/
theorem gmvw_ok (args : List String)
    (hsub : ∀ a ∈ args, a = "kwargs" ∨ a ∈ all_model_validator_kwargs) :
    generic_model_validator_wrapper args =
      .ok (if "kwargs" ∈ args then all_model_validator_kwargs
           else all_model_validator_kwargs.filter (fun a => a ∈ args)) := by
  have hall : ((args.filter (fun a => a ≠ "kwargs")).all
      (fun a => a ∈ all_model_validator_kwargs)) = true := by
    rw [List.all_eq_true]
    intro a ha
    rw [List.mem_filter] at ha
    rcases hsub a ha.1 with h | h
    · exfalso
      have h2 := ha.2
      simp [h] at h2
    · simp [h]
  by_cases hk : "kwargs" ∈ args
  · simp only [generic_model_validator_wrapper]
    rw [hall]
    simp [hk, all_model_validator_kwargs]
  · have hfe : args.filter (fun a => a ≠ "kwargs") = args := filter_ne_kwargs_eq hk
    rw [hfe] at hall
    have hel : ∀ a ∈ args, a = "config" := by
      intro a ha
      rcases hsub a ha with h | h
      · exact absurd (h ▸ ha) hk
      · simpa [all_model_validator_kwargs] using h
    by_cases hc : "config" ∈ args
    · have e0 : setEqv args [] = false := setEqv_false_left "config" hc (by simp)
      simp only [generic_model_validator_wrapper]
      rw [hfe, hall]
      simp [hk, e0, all_model_validator_kwargs, hc]
    · have hnil : args = [] := by
        rw [List.eq_nil_iff_forall_not_mem]
        intro a ha
        exact hc ((hel a ha) ▸ ha)
      subst hnil
      simp [generic_model_validator_wrapper, setEqv, all_model_validator_kwargs]

/-- Model-validator analogue of `gfvw_error`. -/
theorem gmvw_error (args : List String) (a0 : String) (ha : a0 ∈ args)
    (hk0 : a0 ≠ "kwargs") (hb : a0 ∉ all_model_validator_kwargs) :
    generic_model_validator_wrapper args = .error "validator-signature" := by
  have hall : ((args.filter (fun a => a ≠ "kwargs")).all
      (fun a => a ∈ all_model_validator_kwargs)) = false := by
    rw [List.all_eq_false]
    refine ⟨a0, ?_, by simp [hb]⟩
    rw [List.mem_filter]
    exact ⟨ha, by simp [hk0]⟩
  simp only [generic_model_validator_wrapper]
  rw [hall]
  simp

/-- Counterexample to claim C8 as stated: for the declared parameters
`(self, foo, **kwargs)` the receiver is not a class reference and a
catch-all variadic-keyword parameter IS declared, so by the claim the
adapter should return a wrapper; the source checks the unrecognized-name
condition on the declared names with `kwargs` removed BEFORE honouring the
catch-all, so it fails with a UsageError instead. -/
theorem C8_counterexample_catch_all_not_honoured :
    ("self" : String) ≠ "cls" ∧ "kwargs" ∈ ["foo", "kwargs"] ∧
    make_generic_field_validator "self" ["foo", "kwargs"] = .error "validator-signature" := by
  refine ⟨by decide, by simp, ?_⟩
  rfl

/-- Claim C8 as amended: the adapter fails with a UsageError exactly when
the receiver is named `cls` or some declared parameter name other than the
receiver and other than the catch-all `kwargs` lies outside the recognized
set — the presence of a catch-all does NOT excuse an unrecognized name —
and otherwise returns a wrapper that forwards by keyword all recognized
parameters when the catch-all is declared, else exactly the declared
subset; likewise for the model-validator variant with recognized set
`{config}`. -/
theorem C8_signature_adapter_amended :
    (∀ (first : String) (args : List String),
      make_generic_field_validator first args = .error "validator-signature" ↔
        first = "cls" ∨ ∃ a ∈ args, a ≠ "kwargs" ∧ a ∉ all_field_validator_kwargs) ∧
    (∀ (first : String) (args : List String), first ≠ "cls" →
      (∀ a ∈ args, a = "kwargs" ∨ a ∈ all_field_validator_kwargs) →
      make_generic_field_validator first args =
        .ok (if "kwargs" ∈ args then all_field_validator_kwargs
             else all_field_validator_kwargs.filter (fun a => a ∈ args))) ∧
    (∀ (first : String) (args : List String),
      make_generic_model_validator first args = .error "validator-signature" ↔
        first = "cls" ∨ ∃ a ∈ args, a ≠ "kwargs" ∧ a ∉ all_model_validator_kwargs) ∧
    (∀ (first : String) (args : List String), first ≠ "cls" →
      (∀ a ∈ args, a = "kwargs" ∨ a ∈ all_model_validator_kwargs) →
      make_generic_model_validator first args =
        .ok (if "kwargs" ∈ args then all_model_validator_kwargs
             else all_model_validator_kwargs.filter (fun a => a ∈ args))) := by
  refine ⟨?_, ?_, ?_, ?_⟩
  · intro first args
    by_cases hcls : first = "cls"
    · simp [make_generic_field_validator, hcls]
    · simp only [make_generic_field_validator, if_neg hcls]
      constructor
      · intro herr
        by_contra hno
        push_neg at hno
        obtain ⟨hnc, hgood⟩ := hno
        have hsub : ∀ a ∈ args, a = "kwargs" ∨ a ∈ all_field_validator_kwargs := by
          intro a ha
          by_cases hak : a = "kwargs"
          · exact Or.inl hak
          · exact Or.inr (hgood a ha hak)
        rw [gfvw_ok args hsub] at herr
        simp at herr
      · rintro (hcls2 | ⟨a0, ha, hk0, hb⟩)
        · exact absurd hcls2 hcls
        · exact gfvw_error args a0 ha hk0 hb
  · intro first args hcls hsub
    simp only [make_generic_field_validator, if_neg hcls]
    exact gfvw_ok args hsub
  · intro first args
    by_cases hcls : first = "cls"
    · simp [make_generic_model_validator, hcls]
    · simp only [make_generic_model_validator, if_neg hcls]
      constructor
      · intro herr
        by_contra hno
        push_neg at hno
        obtain ⟨hnc, hgood⟩ := hno
        have hsub : ∀ a ∈ args, a = "kwargs" ∨ a ∈ all_model_validator_kwargs := by
          intro a ha
          by_cases hak : a = "kwargs"
          · exact Or.inl hak
          · exact Or.inr (hgood a ha hak)
        rw [gmvw_ok args hsub] at herr
        simp at herr
      · rintro (hcls2 | ⟨a0, ha, hk0, hb⟩)
        · exact absurd hcls2 hcls
        · exact gmvw_error args a0 ha hk0 hb
  · intro first args hcls hsub
    simp only [make_generic_model_validator, if_neg hcls]
    exact gmvw_ok args hsub

/-- Witness for the amended C8 at concrete signatures: `(cls, value)`
fails, `(self, value)` forwards only `value`, and `(self, config,
**kwargs)` forwards `config`. -/
theorem C8_signature_adapter_amended_witness :
    make_generic_field_validator "cls" ["value"] = .error "validator-signature" ∧
    make_generic_field_validator "self" ["value"] =
      .ok (if "kwargs" ∈ ["value"] then all_field_validator_kwargs
           else all_field_validator_kwargs.filter (fun a => a ∈ (["value"] : List String))) ∧
    make_generic_model_validator "self" ["config", "kwargs"] =
      .ok (if "kwargs" ∈ ["config", "kwargs"] then all_model_validator_kwargs
           else all_model_validator_kwargs.filter
             (fun a => a ∈ (["config", "kwargs"] : List String))) :=
  ⟨(C8_signature_adapter_amended.1 "cls" ["value"]).mpr (Or.inl rfl),
   C8_signature_adapter_amended.2.1 "self" ["value"] (by decide) (by decide),
   C8_signature_adapter_amended.2.2.2 "self" ["config", "kwargs"] (by decide) (by decide)⟩

/-- Shifting by no collected errors is the identity. -/
theorem errShift_nil (r : Except String (List ErrorDetail)) : errShift [] r = r := by
  cases r <;> simp [errShift]

/-- Shifts compose by concatenation. -/
theorem errShift_comp (errs es : List ErrorDetail) (r : Except String (List ErrorDetail)) :
    errShift errs (errShift es r) = errShift (errs ++ es) r := by
  cases r <;> simp [errShift]

/-- The inner field loop relates to its restart from an empty list by
prefixing the already-collected errors. -/
theorem runFieldNames_acc (f : FieldFunc) (cfg : VConfig) (attrs : Attrs)
    (names : List String) :
    ∀ errs, runFieldNames f cfg attrs names errs =
      errShift errs (runFieldNames f cfg attrs names []) := by
  induction names with
  | nil => intro errs; simp [runFieldNames, errShift]
  | cons name rest ih =>
    intro errs
    cases h : f attrs (getattrD attrs name) name cfg with
    | ok =>
      simp only [runFieldNames, h]
      exact ih errs
    | valueError m =>
      simp only [runFieldNames, h, List.nil_append]
      rw [ih (errs ++ [fieldErrorEntry attrs name m]), ih [fieldErrorEntry attrs name m],
          errShift_comp]
    | assertionError m =>
      simp only [runFieldNames, h, List.nil_append]
      rw [ih (errs ++ [fieldErrorEntry attrs name m]), ih [fieldErrorEntry attrs name m],
          errShift_comp]
    | fatal m => simp [runFieldNames, h, errShift]

/-- The outer field loop relates to its restart from an empty list by
prefixing the already-collected errors. -/
theorem runFieldValidators_acc (attrs : Attrs)
    (l : List (List String × Validator FieldFunc)) :
    ∀ errs, runFieldValidators attrs l errs =
      errShift errs (runFieldValidators attrs l []) := by
  induction l with
  | nil => intro errs; simp [runFieldValidators, errShift]
  | cons b rest ih =>
    intro errs
    obtain ⟨names, v⟩ := b
    simp only [runFieldValidators]
    rw [runFieldNames_acc v.func v.config attrs names errs]
    cases hb : runFieldNames v.func v.config attrs names [] with
    | error m => simp [errShift]
    | ok es =>
      simp only [errShift]
      rw [ih (errs ++ es), ih es]
      cases hr : runFieldValidators attrs rest [] <;> simp [errShift, hr]

/-- The model-validator loop relates to its restart from an empty list by
prefixing the already-collected errors. -/
theorem runModelValidators_acc (attrs : Attrs) (l : List (Validator ModelFunc)) :
    ∀ errs, runModelValidators attrs l errs =
      errShift errs (runModelValidators attrs l []) := by
  induction l with
  | nil => intro errs; simp [runModelValidators, errShift]
  | cons v rest ih =>
    intro errs
    cases h : v.func attrs v.config with
    | ok =>
      simp only [runModelValidators, h]
      exact ih errs
    | valueError m =>
      simp only [runModelValidators, h, List.nil_append]
      rw [ih (errs ++ [modelErrorEntry attrs m]), ih [modelErrorEntry attrs m],
          errShift_comp]
    | assertionError m =>
      simp only [runModelValidators, h, List.nil_append]
      rw [ih (errs ++ [modelErrorEntry attrs m]), ih [modelErrorEntry attrs m],
          errShift_comp]
    | fatal m => simp [runModelValidators, h, errShift]


/-- The list walk relates to its restart from an empty list by prefixing
the already-collected errors. -/
theorem walkList_acc (ct : ClassTable) (name : String) (xs : List Value) :
    ∀ idx errs, walkList ct name idx xs errs =
      errShift errs (walkList ct name idx xs []) := by
  induction xs with
  | nil => intro idx errs; simp [walkList, errShift]
  | cons x rest ih =>
    intro idx errs
    cases x with
    | inst ccls cattrs =>
      by_cases hi : (ct ccls).isSome
      · cases hc : collectErrors ct ccls cattrs with
        | error m => simp [walkList, hi, hc, errShift]
        | ok ces =>
          simp only [walkList, hi, hc, if_pos, List.nil_append]
          rw [ih (idx + 1) (errs ++ prefix_errors [.s name, .i idx] ces),
              ih (idx + 1) (prefix_errors [.s name, .i idx] ces)]
          cases hb : walkList ct name (idx + 1) rest [] <;> simp [errShift, hb]
      · simp only [walkList, hi, if_neg, ite_false]
        exact ih (idx + 1) errs
    | vnone => simp only [walkList]; exact ih (idx + 1) errs
    | prim tag => simp only [walkList]; exact ih (idx + 1) errs
    | vlist ys => simp only [walkList]; exact ih (idx + 1) errs
    | vtuple ys => simp only [walkList]; exact ih (idx + 1) errs
    | vdict kvs => simp only [walkList]; exact ih (idx + 1) errs

/-- The dict walk relates to its restart from an empty list by prefixing
the already-collected errors. -/
theorem walkDict_acc (ct : ClassTable) (name : String) (kvs : List (String × Value)) :
    ∀ errs, walkDict ct name kvs errs = errShift errs (walkDict ct name kvs []) := by
  induction kvs with
  | nil => intro errs; simp [walkDict, errShift]
  | cons kv rest ih =>
    intro errs
    obtain ⟨k, x⟩ := kv
    cases x with
    | inst ccls cattrs =>
      by_cases hi : (ct ccls).isSome
      · cases hc : collectErrors ct ccls cattrs with
        | error m => simp [walkDict, hi, hc, errShift]
        | ok ces =>
          simp only [walkDict, hi, hc, if_pos, List.nil_append]
          rw [ih (errs ++ prefix_errors [.s name, .s k] ces),
              ih (prefix_errors [.s name, .s k] ces)]
          cases hb : walkDict ct name rest [] <;> simp [errShift, hb]
      · simp only [walkDict, hi, if_neg, ite_false]
        exact ih errs
    | vnone => simp only [walkDict]; exact ih errs
    | prim tag => simp only [walkDict]; exact ih errs
    | vlist ys => simp only [walkDict]; exact ih errs
    | vtuple ys => simp only [walkDict]; exact ih errs
    | vdict kvs2 => simp only [walkDict]; exact ih errs

/-- The per-attribute walk relates to its restart from an empty list by
prefixing the already-collected errors. -/
theorem walkAttr_acc (ct : ClassTable) (name : String) (v : Value) :
    ∀ errs, walkAttr ct name v errs = errShift errs (walkAttr ct name v []) := by
  intro errs
  cases v with
  | inst ccls cattrs =>
    by_cases hi : (ct ccls).isSome
    · cases hc : collectErrors ct ccls cattrs with
      | error m => simp [walkAttr, hi, hc, errShift]
      | ok ces => simp [walkAttr, hi, hc, errShift]
    · simp [walkAttr, hi, errShift]
  | vnone => simp [walkAttr, errShift]
  | prim tag => simp [walkAttr, errShift]
  | vlist ys => simp only [walkAttr]; exact walkList_acc ct name ys 0 errs
  | vtuple ys => simp [walkAttr, errShift]
  | vdict kvs => simp only [walkAttr]; exact walkDict_acc ct name kvs errs

/-- The attribute walk relates to its restart from an empty list by
prefixing the already-collected errors. -/
theorem walkAttrs_acc (ct : ClassTable) (l : Attrs) :
    ∀ errs, walkAttrs ct l errs = errShift errs (walkAttrs ct l []) := by
  induction l with
  | nil => intro errs; simp [walkAttrs, errShift]
  | cons av rest ih =>
    intro errs
    obtain ⟨name, v⟩ := av
    simp only [walkAttrs]
    rw [walkAttr_acc ct name v errs]
    cases hw : walkAttr ct name v [] with
    | error m => simp [errShift]
    | ok e1 =>
      simp only [errShift, List.nil_append]
      rw [ih (errs ++ e1), ih e1]
      cases hb : walkAttrs ct rest [] <;> simp [errShift, hb]

/-- The single accumulated `validation_errors` list of
`model_async_validate` decomposes into the field-validator phase, then the
model-validator phase, then the recursive attribute walk, concatenated in
that fixed order. -/
theorem collectErrors_phase_decomposition (ct : ClassTable) (cls : String) (attrs : Attrs) :
    collectErrors ct cls attrs =
      (do
        let a ← runFieldValidators attrs
          ((ct cls).getD ⟨[], []⟩).field_validators []
        let b ← runModelValidators attrs
          ((ct cls).getD ⟨[], []⟩).model_validators []
        let c ← walkAttrs ct attrs []
        pure (a ++ b ++ c)) := by
  cases h1 : runFieldValidators attrs ((ct cls).getD ⟨[], []⟩).field_validators [] with
  | error m => simp [collectErrors, h1, Bind.bind, Except.bind]
  | ok a =>
    simp only [collectErrors, h1]
    cases h2 : runModelValidators attrs ((ct cls).getD ⟨[], []⟩).model_validators [] with
    | error m =>
      rw [runModelValidators_acc attrs ((ct cls).getD ⟨[], []⟩).model_validators a, h2]
      simp [errShift, Bind.bind, Except.bind]
    | ok b =>
      rw [runModelValidators_acc attrs ((ct cls).getD ⟨[], []⟩).model_validators a, h2]
      simp only [errShift]
      cases h3 : walkAttrs ct attrs [] with
      | error m =>
        rw [walkAttrs_acc ct attrs (a ++ b), h3]
        simp [errShift, Bind.bind, Except.bind]
      | ok c =>
        rw [walkAttrs_acc ct attrs (a ++ b), h3]
        simp [errShift, Bind.bind, Except.bind, Pure.pure, Except.pure]


/-- Claim C9: the engine is a pure sequential function of the instance —
two runs of the entry point on the same unmutated instance give the same
result (hence the same ordered error list), and the collected list is
always the field-validator errors, then the model-validator errors, then
the recursively collected child errors, each phase in declaration /
composition order, never reordered. -/
theorem C9_deterministic_sequential_order :
    ∀ (ct : ClassTable) (cls : String) (attrs : Attrs),
      model_async_validate ct cls attrs = model_async_validate ct cls attrs ∧
      collectErrors ct cls attrs =
        (do
          let a ← runFieldValidators attrs
            ((ct cls).getD ⟨[], []⟩).field_validators []
          let b ← runModelValidators attrs
            ((ct cls).getD ⟨[], []⟩).model_validators []
          let c ← walkAttrs ct attrs []
          pure (a ++ b ++ c)) :=
  fun ct cls attrs => ⟨rfl, collectErrors_phase_decomposition ct cls attrs⟩

/-- If the field validator body never mutates `self.__dict__`, neither
does the inner field loop. -/
theorem runFieldNamesM_preserves (f : FieldFuncM) (hf : FieldFuncPreserves f)
    (cfg : VConfig) :
    ∀ (names : List String) (attrs : Attrs) (errs : List ErrorDetail)
      (out : List ErrorDetail × Attrs),
      runFieldNamesM f cfg names attrs errs = .ok out → out.2 = attrs := by
  intro names
  induction names with
  | nil =>
    intro attrs errs out h
    simp [runFieldNamesM] at h
    rw [← h]
  | cons name rest ih =>
    intro attrs errs out h
    cases hp : f attrs (getattrD attrs name) name cfg with
    | mk o attrs2 =>
      have ha2 : attrs2 = attrs := by
        have h0 := hf attrs (getattrD attrs name) name cfg
        rw [hp] at h0
        exact h0
      cases o with
      | ok =>
        simp only [runFieldNamesM, hp] at h
        exact (ih attrs2 errs out h).trans ha2
      | valueError m =>
        simp only [runFieldNamesM, hp] at h
        exact (ih attrs2 _ out h).trans ha2
      | assertionError m =>
        simp only [runFieldNamesM, hp] at h
        exact (ih attrs2 _ out h).trans ha2
      | fatal m =>
        simp only [runFieldNamesM, hp] at h
        cases h

/-- If no registered field validator body mutates, neither does the outer
field loop. -/
theorem runFieldValidatorsM_preserves
    (l : List (List String × Validator FieldFuncM))
    (hl : ∀ b ∈ l, FieldFuncPreserves b.2.func) :
    ∀ (attrs : Attrs) (errs : List ErrorDetail) (out : List ErrorDetail × Attrs),
      runFieldValidatorsM l attrs errs = .ok out → out.2 = attrs := by
  induction l with
  | nil =>
    intro attrs errs out h
    simp [runFieldValidatorsM] at h
    rw [← h]
  | cons b rest ih =>
    intro attrs errs out h
    obtain ⟨names, v⟩ := b
    cases hr : runFieldNamesM v.func v.config names attrs errs with
    | error m =>
      simp only [runFieldValidatorsM, hr] at h
      cases h
    | ok p =>
      obtain ⟨errs2, attrs2⟩ := p
      have e2 : attrs2 = attrs :=
        runFieldNamesM_preserves v.func (hl (names, v) (by simp)) v.config
          names attrs errs (errs2, attrs2) hr
      simp only [runFieldValidatorsM, hr] at h
      exact (ih (fun x hx => hl x (by simp [hx])) attrs2 errs2 out h).trans e2

/-- If no registered model validator body mutates, neither does the
model-validator loop. -/
theorem runModelValidatorsM_preserves (l : List (Validator ModelFuncM))
    (hl : ∀ v ∈ l, ModelFuncPreserves v.func) :
    ∀ (attrs : Attrs) (errs : List ErrorDetail) (out : List ErrorDetail × Attrs),
      runModelValidatorsM l attrs errs = .ok out → out.2 = attrs := by
  induction l with
  | nil =>
    intro attrs errs out h
    simp [runModelValidatorsM] at h
    rw [← h]
  | cons v rest ih =>
    intro attrs errs out h
    cases hp : v.func attrs v.config with
    | mk o attrs2 =>
      have ha2 : attrs2 = attrs := by
        have h0 := hl v (by simp) attrs v.config
        rw [hp] at h0
        exact h0
      have hrest : ∀ w ∈ rest, ModelFuncPreserves w.func :=
        fun w hw => hl w (by simp [hw])
      cases o with
      | ok =>
        simp only [runModelValidatorsM, hp] at h
        exact (ih hrest attrs2 errs out h).trans ha2
      | valueError m =>
        simp only [runModelValidatorsM, hp] at h
        exact (ih hrest attrs2 _ out h).trans ha2
      | assertionError m =>
        simp only [runModelValidatorsM, hp] at h
        exact (ih hrest attrs2 _ out h).trans ha2
      | fatal m =>
        simp only [runModelValidatorsM, hp] at h
        cases h


/-- If recursive validation preserves every child instance, the list walk
rebuilds the element list unchanged. -/
theorem walkListM_preserves (ct : ClassTableM) (fuel : Nat) (name : String)
    (ihc : ∀ (cls : String) (attrs : Attrs) (out2 : List ErrorDetail × Attrs),
      collectErrorsM ct fuel cls attrs = .ok out2 → out2.2 = attrs) :
    ∀ (xs : List Value) (idx : Nat) (errs : List ErrorDetail)
      (out : List ErrorDetail × List Value),
      walkListM ct fuel name idx xs errs = .ok out → out.2 = xs := by
  intro xs
  induction xs with
  | nil =>
    intro idx errs out h
    simp [walkListM] at h
    rw [← h]
  | cons x rest ih =>
    intro idx errs out h
    cases x with
    | inst ccls cattrs =>
      by_cases hi : (ct ccls).isSome
      · cases hc : collectErrorsM ct fuel ccls cattrs with
        | error m =>
          simp only [walkListM, hi, hc, if_true] at h
          cases h
        | ok p =>
          obtain ⟨ces, cattrs2⟩ := p
          have e : cattrs2 = cattrs := ihc ccls cattrs (ces, cattrs2) hc
          cases hr : walkListM ct fuel name (idx + 1) rest
              (errs ++ prefix_errors [.s name, .i idx] ces) with
          | error m =>
            simp only [walkListM, hi, hc, hr, if_true] at h
            cases h
          | ok q =>
            obtain ⟨errs2, rest2⟩ := q
            have er : rest2 = rest := ih (idx + 1) _ (errs2, rest2) hr
            simp only [walkListM, hi, hc, hr, if_true, Except.ok.injEq] at h
            rw [← h]
            simp [e, er]
      · cases hr : walkListM ct fuel name (idx + 1) rest errs with
        | error m =>
          simp only [walkListM, hi, hr, Bool.false_eq_true, if_false] at h
          cases h
        | ok q =>
          obtain ⟨errs2, rest2⟩ := q
          have er : rest2 = rest := ih (idx + 1) errs (errs2, rest2) hr
          simp only [walkListM, hi, hr, Bool.false_eq_true, if_false,
            Except.ok.injEq] at h
          rw [← h]
          simp [er]
    | vnone =>
      cases hr : walkListM ct fuel name (idx + 1) rest errs with
      | error m =>
        simp only [walkListM, hr] at h
        cases h
      | ok q =>
        obtain ⟨errs2, rest2⟩ := q
        have er : rest2 = rest := ih (idx + 1) errs (errs2, rest2) hr
        simp only [walkListM, hr, Except.ok.injEq] at h
        rw [← h]
        simp [er]
    | prim tag =>
      cases hr : walkListM ct fuel name (idx + 1) rest errs with
      | error m =>
        simp only [walkListM, hr] at h
        cases h
      | ok q =>
        obtain ⟨errs2, rest2⟩ := q
        have er : rest2 = rest := ih (idx + 1) errs (errs2, rest2) hr
        simp only [walkListM, hr, Except.ok.injEq] at h
        rw [← h]
        simp [er]
    | vlist ys =>
      cases hr : walkListM ct fuel name (idx + 1) rest errs with
      | error m =>
        simp only [walkListM, hr] at h
        cases h
      | ok q =>
        obtain ⟨errs2, rest2⟩ := q
        have er : rest2 = rest := ih (idx + 1) errs (errs2, rest2) hr
        simp only [walkListM, hr, Except.ok.injEq] at h
        rw [← h]
        simp [er]
    | vtuple ys =>
      cases hr : walkListM ct fuel name (idx + 1) rest errs with
      | error m =>
        simp only [walkListM, hr] at h
        cases h
      | ok q =>
        obtain ⟨errs2, rest2⟩ := q
        have er : rest2 = rest := ih (idx + 1) errs (errs2, rest2) hr
        simp only [walkListM, hr, Except.ok.injEq] at h
        rw [← h]
        simp [er]
    | vdict kvs =>
      cases hr : walkListM ct fuel name (idx + 1) rest errs with
      | error m =>
        simp only [walkListM, hr] at h
        cases h
      | ok q =>
        obtain ⟨errs2, rest2⟩ := q
        have er : rest2 = rest := ih (idx + 1) errs (errs2, rest2) hr
        simp only [walkListM, hr, Except.ok.injEq] at h
        rw [← h]
        simp [er]


/-- If recursive validation preserves every child instance, the dict walk
rebuilds the key-value list unchanged. -/
theorem walkDictM_preserves (ct : ClassTableM) (fuel : Nat) (name : String)
    (ihc : ∀ (cls : String) (attrs : Attrs) (out2 : List ErrorDetail × Attrs),
      collectErrorsM ct fuel cls attrs = .ok out2 → out2.2 = attrs) :
    ∀ (kvs : List (String × Value)) (errs : List ErrorDetail)
      (out : List ErrorDetail × List (String × Value)),
      walkDictM ct fuel name kvs errs = .ok out → out.2 = kvs := by
  intro kvs
  induction kvs with
  | nil =>
    intro errs out h
    simp [walkDictM] at h
    rw [← h]
  | cons kv rest ih =>
    intro errs out h
    obtain ⟨k, x⟩ := kv
    cases x with
    | inst ccls cattrs =>
      by_cases hi : (ct ccls).isSome
      · cases hc : collectErrorsM ct fuel ccls cattrs with
        | error m =>
          simp only [walkDictM, hi, hc, if_true] at h
          cases h
        | ok p =>
          obtain ⟨ces, cattrs2⟩ := p
          have e : cattrs2 = cattrs := ihc ccls cattrs (ces, cattrs2) hc
          cases hr : walkDictM ct fuel name rest
              (errs ++ prefix_errors [.s name, .s k] ces) with
          | error m =>
            simp only [walkDictM, hi, hc, hr, if_true] at h
            cases h
          | ok q =>
            obtain ⟨errs2, rest2⟩ := q
            have er : rest2 = rest := ih _ (errs2, rest2) hr
            simp only [walkDictM, hi, hc, hr, if_true, Except.ok.injEq] at h
            rw [← h]
            simp [e, er]
      · cases hr : walkDictM ct fuel name rest errs with
        | error m =>
          simp only [walkDictM, hi, hr, Bool.false_eq_true, if_false] at h
          cases h
        | ok q =>
          obtain ⟨errs2, rest2⟩ := q
          have er : rest2 = rest := ih errs (errs2, rest2) hr
          simp only [walkDictM, hi, hr, Bool.false_eq_true, if_false,
            Except.ok.injEq] at h
          rw [← h]
          simp [er]
    | vnone =>
      cases hr : walkDictM ct fuel name rest errs with
      | error m =>
        simp only [walkDictM, hr] at h
        cases h
      | ok q =>
        obtain ⟨errs2, rest2⟩ := q
        have er : rest2 = rest := ih errs (errs2, rest2) hr
        simp only [walkDictM, hr, Except.ok.injEq] at h
        rw [← h]
        simp [er]
    | prim tag =>
      cases hr : walkDictM ct fuel name rest errs with
      | error m =>
        simp only [walkDictM, hr] at h
        cases h
      | ok q =>
        obtain ⟨errs2, rest2⟩ := q
        have er : rest2 = rest := ih errs (errs2, rest2) hr
        simp only [walkDictM, hr, Except.ok.injEq] at h
        rw [← h]
        simp [er]
    | vlist ys =>
      cases hr : walkDictM ct fuel name rest errs with
      | error m =>
        simp only [walkDictM, hr] at h
        cases h
      | ok q =>
        obtain ⟨errs2, rest2⟩ := q
        have er : rest2 = rest := ih errs (errs2, rest2) hr
        simp only [walkDictM, hr, Except.ok.injEq] at h
        rw [← h]
        simp [er]
    | vtuple ys =>
      cases hr : walkDictM ct fuel name rest errs with
      | error m =>
        simp only [walkDictM, hr] at h
        cases h
      | ok q =>
        obtain ⟨errs2, rest2⟩ := q
        have er : rest2 = rest := ih errs (errs2, rest2) hr
        simp only [walkDictM, hr, Except.ok.injEq] at h
        rw [← h]
        simp [er]
    | vdict kvs2 =>
      cases hr : walkDictM ct fuel name rest errs with
      | error m =>
        simp only [walkDictM, hr] at h
        cases h
      | ok q =>
        obtain ⟨errs2, rest2⟩ := q
        have er : rest2 = rest := ih errs (errs2, rest2) hr
        simp only [walkDictM, hr, Except.ok.injEq] at h
        rw [← h]
        simp [er]

/-- If recursive validation preserves every child instance, the
per-attribute walk returns the attribute value unchanged. -/
theorem walkAttrM_preserves (ct : ClassTableM) (fuel : Nat)
    (ihc : ∀ (cls : String) (attrs : Attrs) (out2 : List ErrorDetail × Attrs),
      collectErrorsM ct fuel cls attrs = .ok out2 → out2.2 = attrs)
    (name : String) (v : Value) (errs : List ErrorDetail)
    (out : List ErrorDetail × Value)
    (h : walkAttrM ct fuel name v errs = .ok out) : out.2 = v := by
  cases v with
  | inst ccls cattrs =>
    by_cases hi : (ct ccls).isSome
    · cases hc : collectErrorsM ct fuel ccls cattrs with
      | error m =>
        simp only [walkAttrM, hi, hc, if_true] at h
        cases h
      | ok p =>
        obtain ⟨ces, cattrs2⟩ := p
        have e : cattrs2 = cattrs := ihc ccls cattrs (ces, cattrs2) hc
        simp only [walkAttrM, hi, hc, if_true, Except.ok.injEq] at h
        rw [← h]
        simp [e]
    · simp only [walkAttrM, hi, Bool.false_eq_true, if_false, Except.ok.injEq] at h
      rw [← h]
  | vnone =>
    simp only [walkAttrM, Except.ok.injEq] at h
    rw [← h]
  | prim tag =>
    simp only [walkAttrM, Except.ok.injEq] at h
    rw [← h]
  | vlist xs =>
    cases hr : walkListM ct fuel name 0 xs errs with
    | error m =>
      simp only [walkAttrM, hr] at h
      cases h
    | ok q =>
      obtain ⟨errs2, xs2⟩ := q
      have ex : xs2 = xs := walkListM_preserves ct fuel name ihc xs 0 errs (errs2, xs2) hr
      simp only [walkAttrM, hr, Except.ok.injEq] at h
      rw [← h]
      simp [ex]
  | vtuple xs =>
    simp only [walkAttrM, Except.ok.injEq] at h
    rw [← h]
  | vdict kvs =>
    cases hr : walkDictM ct fuel name kvs errs with
    | error m =>
      simp only [walkAttrM, hr] at h
      cases h
    | ok q =>
      obtain ⟨errs2, kvs2⟩ := q
      have ex : kvs2 = kvs := walkDictM_preserves ct fuel name ihc kvs errs (errs2, kvs2) hr
      simp only [walkAttrM, hr, Except.ok.injEq] at h
      rw [← h]
      simp [ex]

/-- If recursive validation preserves every child instance, the attribute
walk rebuilds `self.__dict__` unchanged. -/
theorem walkAttrsM_preserves (ct : ClassTableM) (fuel : Nat)
    (ihc : ∀ (cls : String) (attrs : Attrs) (out2 : List ErrorDetail × Attrs),
      collectErrorsM ct fuel cls attrs = .ok out2 → out2.2 = attrs) :
    ∀ (l : Attrs) (errs : List ErrorDetail) (out : List ErrorDetail × Attrs),
      walkAttrsM ct fuel l errs = .ok out → out.2 = l := by
  intro l
  induction l with
  | nil =>
    intro errs out h
    simp [walkAttrsM] at h
    rw [← h]
  | cons av rest ih =>
    intro errs out h
    obtain ⟨name, v⟩ := av
    cases hw : walkAttrM ct fuel name v errs with
    | error m =>
      simp only [walkAttrsM, hw] at h
      cases h
    | ok p =>
      obtain ⟨errs2, v2⟩ := p
      have ev : v2 = v := walkAttrM_preserves ct fuel ihc name v errs (errs2, v2) hw
      cases hr : walkAttrsM ct fuel rest errs2 with
      | error m =>
        simp only [walkAttrsM, hw, hr] at h
        cases h
      | ok q =>
        obtain ⟨errs3, rest2⟩ := q
        have er : rest2 = rest := ih errs2 (errs3, rest2) hr
        simp only [walkAttrsM, hw, hr, Except.ok.injEq] at h
        rw [← h]
        simp [ev, er]


/-- Claim C10: the entry point itself never mutates observable state —
whenever every validator body registered in the class table leaves
`self.__dict__` unchanged, a completing run of the mutation-aware engine
returns the instance state (including every nested instance it recursed
into, the whole attribute tree) exactly as it found it, for every recursion
budget; the class-level registries are read-only inputs of the run, and
the error list is built afresh inside each call. -/
theorem C10_entry_point_never_mutates (ct : ClassTableM) (htp : TablePreserves ct) :
    ∀ (fuel : Nat) (cls : String) (attrs : Attrs)
      (out : List ErrorDetail × Attrs),
      collectErrorsM ct fuel cls attrs = .ok out → out.2 = attrs := by
  intro fuel
  induction fuel with
  | zero =>
    intro cls attrs out h
    simp [collectErrorsM] at h
    rw [← h]
  | succ fuel ih =>
    intro cls attrs out h
    have hfield : ∀ b ∈ ((ct cls).getD ⟨[], []⟩).field_validators,
        FieldFuncPreserves b.2.func := by
      cases hct : ct cls with
      | none =>
        intro b hb
        simp [hct] at hb
      | some i =>
        intro b hb
        exact (htp cls i hct).1 b (by simpa [hct] using hb)
    have hmodel : ∀ v ∈ ((ct cls).getD ⟨[], []⟩).model_validators,
        ModelFuncPreserves v.func := by
      cases hct : ct cls with
      | none =>
        intro v hv
        simp [hct] at hv
      | some i =>
        intro v hv
        exact (htp cls i hct).2 v (by simpa [hct] using hv)
    cases h1 : runFieldValidatorsM ((ct cls).getD ⟨[], []⟩).field_validators attrs [] with
    | error m =>
      simp only [collectErrorsM, h1] at h
      cases h
    | ok p1 =>
      obtain ⟨errs1, attrs1⟩ := p1
      have e1 : attrs1 = attrs :=
        runFieldValidatorsM_preserves _ hfield attrs [] _ h1
      cases h2 : runModelValidatorsM ((ct cls).getD ⟨[], []⟩).model_validators
          attrs1 errs1 with
      | error m =>
        simp only [collectErrorsM, h1, h2] at h
        cases h
      | ok p2 =>
        obtain ⟨errs2, attrs2⟩ := p2
        have e2 : attrs2 = attrs1 :=
          runModelValidatorsM_preserves _ hmodel attrs1 errs1 _ h2
        cases h3 : walkAttrsM ct fuel attrs2 errs2 with
        | error m =>
          simp only [collectErrorsM, h1, h2, h3] at h
          cases h
        | ok p3 =>
          obtain ⟨errs3, attrs3⟩ := p3
          have e3 : attrs3 = attrs2 :=
            walkAttrsM_preserves ct fuel ih attrs2 errs2 _ h3
          simp only [collectErrorsM, h1, h2, h3, Except.ok.injEq] at h
          rw [← h]
          simp [e3, e2, e1]

/-- Witness for C10: the table of class `W` is mutation-free and a run on
an instance of `W` returns its state unchanged. -/
theorem C10_entry_point_never_mutates_witness :
    TablePreserves exCtW ∧
    (([fieldErrorEntry exAttrsW "x" "bad"], exAttrsW) :
        List ErrorDetail × Attrs).2 = exAttrsW := by
  have htp : TablePreserves exCtW := by
    intro cls info hinfo
    by_cases hcls : cls = "W"
    · subst hcls
      simp only [exCtW, if_pos] at hinfo
      rw [Option.some.injEq] at hinfo
      rw [← hinfo]
      constructor
      · intro b hb
        simp only [List.mem_singleton] at hb
        rw [hb]
        intro a v n c
        rfl
      · intro v hv
        simp at hv
    · simp [exCtW, hcls] at hinfo
  have hcol : collectErrorsM exCtW 1 "W" exAttrsW =
      .ok ([fieldErrorEntry exAttrsW "x" "bad"], exAttrsW) := by
    simp [collectErrorsM, walkAttrsM, walkAttrM, runFieldValidatorsM,
          runFieldNamesM, runModelValidatorsM, exCtW, exAttrsW,
          exPreservingField, Validator.config, getattrD]
  exact ⟨htp, C10_entry_point_never_mutates exCtW htp 1 "W" exAttrsW _ hcol⟩

end PydanticAsyncValidation
